import Mathlib

/-!
Verification of the conflict-free course-schedule search core of the
sustech-course-solver repository (src/models.py and src/solver.py).

The data model (TimeSlot, Section, Course) and the backtracking solver
are embedded shallowly: Python integers become Int, the mutable
occupied set becomes an explicit Finset threaded through the recursion,
and the solver's shared mutable (results, occupied, current_choice)
triple becomes an explicit search state.  An instrumented twin of the
engine additionally records the search events (node expansions together
with the result count at that moment, conflict queries, occupations and
section choices) so that claims about the work performed by the search,
not only about its output, can be stated.
-/

namespace CourseSched

/-- A (weekday, period) cell of the weekly grid, as used by the solver
for the keys of its occupied set. -/
abbrev Cell := Int × Int

/-- Python range(a, b) as a list of integers: a, a+1, ..., b-1; empty
when b is not greater than a. -/
def pyRange (a b : Int) : List Int :=
  (List.range (b - a).toNat).map (fun i => a + (i : Int))

/-- models.py TimeSlot: one contiguous block of periods on one weekday. -/
structure TimeSlot where
  weekday : Int
  start_period : Int
  end_period : Int
deriving DecidableEq

/-- models.py TimeSlot.periods: all (weekday, period) cells covered by
this slot, one for each period in range(start_period, end_period + 1). -/
def TimeSlot.periods (ts : TimeSlot) : List Cell :=
  (pyRange ts.start_period (ts.end_period + 1)).map (fun p => (ts.weekday, p))

/-- models.py Section: one teaching class of a course. -/
structure Section where
  course_name : String
  section_name : String
  section_id : String
  course_type : String
  time_slots : List TimeSlot
  teacher : String
deriving DecidableEq

/-- models.py Section.all_periods: the set of all cells occupied by the
section, accumulated slot by slot as the source does with set.update. -/
def Section.all_periods (s : Section) : Finset Cell :=
  s.time_slots.foldl (fun acc ts => acc ∪ ts.periods.toFinset) ∅

/-- models.py Course: a course together with its candidate sections. -/
structure Course where
  name : String
  sections : List Section
deriving DecidableEq

/-- solver.py _has_conflict: true iff some cell derived from the given
time slots is already in the occupied set (double loop over slots and
their period range, as in the source). -/
def hasConflict (time_slots : List TimeSlot) (occupied : Finset Cell) : Bool :=
  time_slots.any fun ts =>
    (pyRange ts.start_period (ts.end_period + 1)).any fun p =>
      decide ((ts.weekday, p) ∈ occupied)

/-- solver.py _occupy: add every cell of the given slots to the occupied
set and return the list of keys appended along the way (the token later
handed to _release), together with the new occupied set. -/
def occupy (time_slots : List TimeSlot) (occupied : Finset Cell) :
    List Cell × Finset Cell :=
  time_slots.foldl
    (fun acc ts =>
      (pyRange ts.start_period (ts.end_period + 1)).foldl
        (fun acc2 p => (acc2.1 ++ [(ts.weekday, p)], insert (ts.weekday, p) acc2.2))
        acc)
    ([], occupied)

/-- solver.py _release: discard each previously added key from the
occupied set. -/
def release (added : List Cell) (occupied : Finset Cell) : Finset Cell :=
  added.foldl (fun occ key => occ.erase key) occupied

/-- The mutable state shared by the recursive _backtrack calls in
solver.py: the accepted results, the occupied cell set and the current
partial choice (one section per already-assigned course). -/
structure SState where
  results : List (List Section)
  occupied : Finset Cell
  choice : List Section
deriving DecidableEq

/-- The for-loop over course.sections inside solver.py _backtrack.  The
recursive call _backtrack(index + 1) is passed in as the function
recur, which makes the mutually recursive pair structurally recursive
on the course list.  A section with an empty time_slots list is pushed
and recursed on unconditionally; otherwise a conflict query decides
between skipping the section and occupy / recurse / release. -/
def sectLoop (recur : SState → SState) : List Section → SState → SState
  | [], s => s
  | sec :: more, s =>
    if sec.time_slots.isEmpty then
      let s1 := recur ⟨s.results, s.occupied, s.choice ++ [sec]⟩
      sectLoop recur more ⟨s1.results, s1.occupied, s1.choice.dropLast⟩
    else if hasConflict sec.time_slots s.occupied then
      sectLoop recur more s
    else
      let ao := occupy sec.time_slots s.occupied
      let s1 := recur ⟨s.results, ao.2, s.choice ++ [sec]⟩
      sectLoop recur more ⟨s1.results, release ao.1 s1.occupied, s1.choice.dropLast⟩

/-- solver.py _backtrack: return immediately once the result count has
reached max_results; record a copy of the current choice when every
course has been assigned; otherwise loop over the sections of the
course at the current depth. -/
def backtrack (mr : Int) : List Course → SState → SState
  | rem, s =>
    if (s.results.length : Int) ≥ mr then s
    else
      match rem with
      | [] => ⟨s.results ++ [s.choice], s.occupied, s.choice⟩
      | course :: rest => sectLoop (backtrack mr rest) course.sections s

/-- solver.py sorted(valid_courses, key=lambda c: len(c.sections)):
Python sorted is a stable ascending sort, modelled by the stable
insertion sort on the section-count key. -/
def sortCourses (cs : List Course) : List Course :=
  List.insertionSort (fun a b => a.sections.length ≤ b.sections.length) cs

/-- solver.py solve: empty input short-circuits to []; courses without
sections are filtered out (diagnostics are modelled separately by
solveDiagnostics); if nothing remains the result is []; otherwise the
filtered courses are sorted by ascending section count and the
backtracking search runs from the empty state. -/
def solve (courses : List Course) (max_results : Int) : List (List Section) :=
  if courses.isEmpty then []
  else
    let valid_courses := courses.filter (fun c => !c.sections.isEmpty)
    if valid_courses.isEmpty then []
    else (backtrack max_results (sortCourses valid_courses) ⟨[], ∅, []⟩).results

/-- The diagnostic line printed by solver.py solve for a skipped course
with no sections. -/
def skipMsg (name : String) : String :=
  "  [!] 课程 \"" ++ name ++ "\" 没有可选的教学班，已跳过"

/-- The diagnostics emitted by solver.py solve: one skip message per
input course whose section list is empty, in input order. -/
def solveDiagnostics (courses : List Course) : List String :=
  (courses.filter (fun c => c.sections.isEmpty)).map (fun c => skipMsg c.name)

/-- The source performs no validation of max_results and contains no
raise statement on any path of solve, so its Except-typed view always
returns ok with the result list. -/
def solveE (courses : List Course) (max_results : Int) :
    Except String (List (List Section)) :=
  Except.ok (solve courses max_results)

/-- Search events recorded by the instrumented engine: a node expansion
(with the accepted-result count at that entry), an accepted schedule, a
conflict query for a section, an occupation of a section's cells, and a
section being pushed onto the current choice. -/
inductive SEvent where
  | expand (resLen : Nat)
  | record (sched : List Section)
  | check (sec : Section)
  | occupyEv (sec : Section)
  | choose (sec : Section)
deriving DecidableEq

/-- Instrumented twin of sectLoop, also returning the trace of events
of the loop body in execution order. -/
def sectLoopT (recur : SState → SState × List SEvent) :
    List Section → SState → SState × List SEvent
  | [], s => (s, [])
  | sec :: more, s =>
    if sec.time_slots.isEmpty then
      let r1 := recur ⟨s.results, s.occupied, s.choice ++ [sec]⟩
      let r2 := sectLoopT recur more ⟨r1.1.results, r1.1.occupied, r1.1.choice.dropLast⟩
      (r2.1, SEvent.choose sec :: (r1.2 ++ r2.2))
    else if hasConflict sec.time_slots s.occupied then
      let r2 := sectLoopT recur more s
      (r2.1, SEvent.check sec :: r2.2)
    else
      let ao := occupy sec.time_slots s.occupied
      let r1 := recur ⟨s.results, ao.2, s.choice ++ [sec]⟩
      let r2 := sectLoopT recur more ⟨r1.1.results, release ao.1 r1.1.occupied, r1.1.choice.dropLast⟩
      (r2.1, SEvent.check sec :: SEvent.occupyEv sec :: SEvent.choose sec :: (r1.2 ++ r2.2))

/-- Instrumented twin of backtrack: same state evolution, plus the
event trace.  A pruned entry (result count already at the cap)
records no event at all. -/
def backtrackT (mr : Int) : List Course → SState → SState × List SEvent
  | rem, s =>
    if (s.results.length : Int) ≥ mr then (s, [])
    else
      match rem with
      | [] =>
        (⟨s.results ++ [s.choice], s.occupied, s.choice⟩,
         [SEvent.expand s.results.length, SEvent.record s.choice])
      | course :: rest =>
        let r := sectLoopT (backtrackT mr rest) course.sections s
        (r.1, SEvent.expand s.results.length :: r.2)

/-- The event trace of a full solve run. -/
def solveTrace (courses : List Course) (max_results : Int) : List SEvent :=
  if courses.isEmpty then []
  else
    let valid_courses := courses.filter (fun c => !c.sections.isEmpty)
    if valid_courses.isEmpty then []
    else (backtrackT max_results (sortCourses valid_courses) ⟨[], ∅, []⟩).2

/-- The cells covered by a section, as a list (the concatenation of the
cells of its slots, in slot order). -/
def secCells (sec : Section) : List Cell :=
  sec.time_slots.flatMap TimeSlot.periods

/-- The cells covered by a section, as a finite set. -/
def cellsF (sec : Section) : Finset Cell :=
  (secCells sec).toFinset

/-- Two sections are compatible when their covered cell sets are
disjoint. -/
def SDisj (a b : Section) : Prop :=
  Disjoint (cellsF a) (cellsF b)

instance : DecidableRel SDisj := fun a b => by
  unfold SDisj; infer_instance

/-- Modelled from the spec: all combinations picking one section per
course, in course order (the cartesian product of the section lists). -/
def combos : List Course → List (List Section)
  | [] => [[]]
  | c :: rest => c.sections.flatMap (fun sec => (combos rest).map (sec :: ·))

/-- A section is compatible with every section of the given list. -/
def allDisjB (sec : Section) (l : List Section) : Bool :=
  l.all (fun t => decide (SDisj sec t))

/-- Modelled from the spec: a combination is conflict-free when its
sections are pairwise compatible. -/
def okB : List Section → Bool
  | [] => true
  | sec :: l => allDisjB sec l && okB l

/-- Modelled from the spec: the conflict-free combinations of a course
list, one section per course. -/
def validCombos (cs : List Course) : List (List Section) :=
  (combos cs).filter okB

/-- The conflict-free combinations of a course list all of whose
sections are moreover disjoint from a given already-occupied set; this
is the semantic content of a backtrack call at occupied set occ. -/
def validFromL (occ : Finset Cell) : List Course → List (List Section)
  | [] => [[]]
  | c :: rest =>
    c.sections.flatMap (fun sec =>
      if Disjoint (cellsF sec) occ then
        (validFromL (occ ∪ cellsF sec) rest).map (sec :: ·)
      else [])

/-- The part of validFromL contributed by a suffix of the current
course's section list. -/
def validFromSecs (occ : Finset Cell) (secs : List Section) (rest : List Course) :
    List (List Section) :=
  secs.flatMap (fun sec =>
    if Disjoint (cellsF sec) occ then
      (validFromL (occ ∪ cellsF sec) rest).map (sec :: ·)
    else [])

/-- A schedule viewed as the multiset of its sections; two schedules
represent the same combination precisely when these agree. -/
def msOf (l : List Section) : Multiset Section := (l : Multiset Section)

end CourseSched

namespace CourseSched

/-! Basic facts about cells, conflict queries, occupation and release. -/

theorem pyRange_eq_nil (a b : Int) (h : b ≤ a) : pyRange a b = [] := by
  unfold pyRange
  have : (b - a).toNat = 0 := Int.toNat_of_nonpos (by omega)
  simp [this]

theorem periods_eq_nil (ts : TimeSlot) (h : ts.end_period < ts.start_period) :
    ts.periods = [] := by
  unfold TimeSlot.periods
  rw [pyRange_eq_nil _ _ (by omega)]
  rfl

theorem secCells_eq_nil (sec : Section) (h : sec.time_slots = []) :
    secCells sec = [] := by
  simp [secCells, h]

theorem cellsF_eq_empty (sec : Section) (h : sec.time_slots = []) :
    cellsF sec = ∅ := by
  simp [cellsF, secCells_eq_nil sec h]

theorem all_periods_eq_cellsF (sec : Section) : sec.all_periods = cellsF sec := by
  unfold Section.all_periods cellsF secCells
  generalize sec.time_slots = l
  induction l using List.reverseRecOn with
  | nil => simp
  | append_singleton l ts ih =>
    rw [List.foldl_append, List.flatMap_append]
    simp [ih]

theorem hasConflict_eq_true_iff (time_slots : List TimeSlot) (occ : Finset Cell) :
    hasConflict time_slots occ = true ↔
      ∃ c ∈ time_slots.flatMap TimeSlot.periods, c ∈ occ := by
  unfold hasConflict TimeSlot.periods
  simp only [List.any_eq_true, decide_eq_true_eq, List.mem_flatMap, List.mem_map]
  constructor
  · rintro ⟨ts, hts, p, hp, hin⟩
    exact ⟨(ts.weekday, p), ⟨ts, hts, p, hp, rfl⟩, hin⟩
  · rintro ⟨c, ⟨ts, hts, p, hp, rfl⟩, hin⟩
    exact ⟨ts, hts, p, hp, hin⟩

theorem hasConflict_eq_false_iff (time_slots : List TimeSlot) (occ : Finset Cell) :
    hasConflict time_slots occ = false ↔
      Disjoint (time_slots.flatMap TimeSlot.periods).toFinset occ := by
  rw [← Bool.not_eq_true, hasConflict_eq_true_iff, Finset.disjoint_left]
  simp [List.mem_toFinset]

theorem hasConflict_sec_iff (sec : Section) (occ : Finset Cell) :
    hasConflict sec.time_slots occ = false ↔ Disjoint (cellsF sec) occ := by
  rw [hasConflict_eq_false_iff]
  rfl

theorem occupy_inner_eq (w : Int) (ps : List Int) (acc : List Cell × Finset Cell) :
    ps.foldl (fun acc2 p => (acc2.1 ++ [(w, p)], insert (w, p) acc2.2)) acc =
      (acc.1 ++ ps.map (fun p => (w, p)),
       acc.2 ∪ (ps.map (fun p => (w, p))).toFinset) := by
  induction ps generalizing acc with
  | nil => simp
  | cons p rest ih =>
    rw [List.foldl_cons, ih]
    simp only [Prod.mk.injEq]
    refine ⟨by simp, ?_⟩
    simp only [List.map_cons, List.toFinset_cons]
    ext x
    simp only [Finset.mem_union, Finset.mem_insert, List.mem_toFinset]
    tauto

theorem occupy_eq (time_slots : List TimeSlot) (occ : Finset Cell) :
    occupy time_slots occ =
      (time_slots.flatMap TimeSlot.periods,
       occ ∪ (time_slots.flatMap TimeSlot.periods).toFinset) := by
  unfold occupy
  suffices h : ∀ (acc : List Cell × Finset Cell),
      time_slots.foldl
        (fun acc ts =>
          (pyRange ts.start_period (ts.end_period + 1)).foldl
            (fun acc2 p => (acc2.1 ++ [(ts.weekday, p)], insert (ts.weekday, p) acc2.2))
            acc)
        acc =
      (acc.1 ++ time_slots.flatMap TimeSlot.periods,
       acc.2 ∪ (time_slots.flatMap TimeSlot.periods).toFinset) by
    rw [h ([], occ)]
    simp
  intro acc
  induction time_slots generalizing acc with
  | nil => simp
  | cons ts rest ih =>
    rw [List.foldl_cons, occupy_inner_eq, ih]
    simp only [Prod.mk.injEq]
    constructor
    · rw [List.flatMap_cons, List.append_assoc]
      rfl
    · rw [List.flatMap_cons]
      ext x
      simp only [Finset.mem_union, List.mem_toFinset, List.mem_append, TimeSlot.periods]
      tauto

theorem release_eq (added : List Cell) (occ : Finset Cell) :
    release added occ = occ \ added.toFinset := by
  unfold release
  induction added generalizing occ with
  | nil => simp
  | cons k rest ih =>
    rw [List.foldl_cons, ih]
    ext x
    simp only [Finset.mem_sdiff, Finset.mem_erase, List.mem_toFinset, List.toFinset_cons,
      Finset.mem_insert]
    tauto

theorem release_occupy (time_slots : List TimeSlot) (occ : Finset Cell)
    (h : hasConflict time_slots occ = false) :
    release (occupy time_slots occ).1 (occupy time_slots occ).2 = occ := by
  rw [occupy_eq, release_eq]
  have hd := (hasConflict_eq_false_iff time_slots occ).mp h
  ext x
  simp only [Finset.mem_sdiff, Finset.mem_union]
  constructor
  · tauto
  · intro hx
    refine ⟨Or.inl hx, fun hmem => ?_⟩
    exact (Finset.disjoint_left.mp hd) hmem hx

end CourseSched

namespace CourseSched

/-! Unfolding equations for the engine, one per control-flow branch. -/

theorem sectLoop_nil (recur : SState → SState) (s : SState) :
    sectLoop recur [] s = s := rfl

theorem sectLoop_cons_empty (recur : SState → SState) (sec : Section)
    (more : List Section) (s : SState) (h : sec.time_slots.isEmpty = true) :
    sectLoop recur (sec :: more) s =
      (let s1 := recur ⟨s.results, s.occupied, s.choice ++ [sec]⟩
       sectLoop recur more ⟨s1.results, s1.occupied, s1.choice.dropLast⟩) := by
  rw [sectLoop, if_pos h]

theorem sectLoop_cons_conflict (recur : SState → SState) (sec : Section)
    (more : List Section) (s : SState) (h : sec.time_slots.isEmpty = false)
    (hc : hasConflict sec.time_slots s.occupied = true) :
    sectLoop recur (sec :: more) s = sectLoop recur more s := by
  rw [sectLoop, if_neg (by simp [h]), if_pos hc]

theorem sectLoop_cons_go (recur : SState → SState) (sec : Section)
    (more : List Section) (s : SState) (h : sec.time_slots.isEmpty = false)
    (hc : hasConflict sec.time_slots s.occupied = false) :
    sectLoop recur (sec :: more) s =
      (let ao := occupy sec.time_slots s.occupied
       let s1 := recur ⟨s.results, ao.2, s.choice ++ [sec]⟩
       sectLoop recur more ⟨s1.results, release ao.1 s1.occupied, s1.choice.dropLast⟩) := by
  rw [sectLoop, if_neg (by simp [h]), if_neg (by simp [hc])]

theorem backtrack_stop (mr : Int) (rem : List Course) (s : SState)
    (h : (s.results.length : Int) ≥ mr) : backtrack mr rem s = s := by
  rw [backtrack.eq_def]
  exact if_pos h

theorem backtrack_nil (mr : Int) (s : SState)
    (h : ¬ (s.results.length : Int) ≥ mr) :
    backtrack mr [] s = ⟨s.results ++ [s.choice], s.occupied, s.choice⟩ := by
  rw [backtrack, if_neg h]

theorem backtrack_cons (mr : Int) (course : Course) (rest : List Course) (s : SState)
    (h : ¬ (s.results.length : Int) ≥ mr) :
    backtrack mr (course :: rest) s =
      sectLoop (backtrack mr rest) course.sections s := by
  rw [backtrack, if_neg h]

/-! The engine only ever appends to the result list and restores both
the occupied set and the current choice on exit: the shape lemma. -/

theorem sectLoop_shape (recur : SState → SState)
    (hr : ∀ st, ∃ new, recur st = ⟨st.results ++ new, st.occupied, st.choice⟩) :
    ∀ (secs : List Section) (s : SState),
      ∃ new, sectLoop recur secs s = ⟨s.results ++ new, s.occupied, s.choice⟩ := by
  intro secs
  induction secs with
  | nil => intro s; exact ⟨[], by simp [sectLoop_nil]⟩
  | cons sec more ih =>
    intro s
    by_cases hemp : sec.time_slots.isEmpty = true
    · rw [sectLoop_cons_empty recur sec more s hemp]
      obtain ⟨n1, h1⟩ := hr ⟨s.results, s.occupied, s.choice ++ [sec]⟩
      simp only [h1]
      obtain ⟨n2, h2⟩ := ih ⟨s.results ++ n1, s.occupied, (s.choice ++ [sec]).dropLast⟩
      rw [h2]
      exact ⟨n1 ++ n2, by simp [List.dropLast_concat, List.append_assoc]⟩
    · rw [Bool.not_eq_true] at hemp
      by_cases hc : hasConflict sec.time_slots s.occupied = true
      · rw [sectLoop_cons_conflict recur sec more s hemp hc]
        exact ih s
      · rw [Bool.not_eq_true] at hc
        rw [sectLoop_cons_go recur sec more s hemp hc]
        obtain ⟨n1, h1⟩ :=
          hr ⟨s.results, (occupy sec.time_slots s.occupied).2, s.choice ++ [sec]⟩
        simp only [h1]
        obtain ⟨n2, h2⟩ := ih ⟨s.results ++ n1,
          release (occupy sec.time_slots s.occupied).1 (occupy sec.time_slots s.occupied).2,
          (s.choice ++ [sec]).dropLast⟩
        rw [h2]
        refine ⟨n1 ++ n2, ?_⟩
        rw [release_occupy sec.time_slots s.occupied hc]
        simp [List.dropLast_concat, List.append_assoc]

theorem backtrack_shape (mr : Int) :
    ∀ (rem : List Course) (s : SState),
      ∃ new, backtrack mr rem s = ⟨s.results ++ new, s.occupied, s.choice⟩ := by
  intro rem
  induction rem with
  | nil =>
    intro s
    by_cases h : (s.results.length : Int) ≥ mr
    · exact ⟨[], by simp [backtrack_stop mr [] s h]⟩
    · exact ⟨[s.choice], by rw [backtrack_nil mr s h]⟩
  | cons course rest ih =>
    intro s
    by_cases h : (s.results.length : Int) ≥ mr
    · exact ⟨[], by simp [backtrack_stop mr (course :: rest) s h]⟩
    · rw [backtrack_cons mr course rest s h]
      exact sectLoop_shape (backtrack mr rest) ih course.sections s

theorem backtrack_occupied (mr : Int) (rem : List Course) (s : SState) :
    (backtrack mr rem s).occupied = s.occupied := by
  obtain ⟨new, h⟩ := backtrack_shape mr rem s
  rw [h]

theorem backtrack_choice (mr : Int) (rem : List Course) (s : SState) :
    (backtrack mr rem s).choice = s.choice := by
  obtain ⟨new, h⟩ := backtrack_shape mr rem s
  rw [h]

theorem sectLoop_occupied (mr : Int) (rest : List Course) (secs : List Section)
    (s : SState) : (sectLoop (backtrack mr rest) secs s).occupied = s.occupied := by
  obtain ⟨new, h⟩ := sectLoop_shape (backtrack mr rest)
    (backtrack_shape mr rest) secs s
  rw [h]

end CourseSched

namespace CourseSched

/-! Results are pairwise conflict-free: the occupancy invariant. -/

/-- Invariant of the search state: the current choice is pairwise
compatible, every chosen section's cells are inside the occupied set,
and every already-accepted result is pairwise compatible. -/
def Inv (s : SState) : Prop :=
  s.choice.Pairwise SDisj ∧ (∀ sec ∈ s.choice, cellsF sec ⊆ s.occupied) ∧
    ∀ r ∈ s.results, r.Pairwise SDisj

theorem Inv_push_empty (s : SState) (sec : Section) (hinv : Inv s)
    (hemp : sec.time_slots.isEmpty = true) :
    Inv ⟨s.results, s.occupied, s.choice ++ [sec]⟩ := by
  obtain ⟨hpw, hsub, hres⟩ := hinv
  have hcells : cellsF sec = ∅ :=
    cellsF_eq_empty sec (List.isEmpty_iff.mp hemp)
  refine ⟨?_, ?_, hres⟩
  · rw [List.pairwise_append]
    refine ⟨hpw, List.pairwise_singleton _ _, ?_⟩
    intro a _ b hb
    rw [List.mem_singleton] at hb
    subst hb
    show Disjoint (cellsF a) (cellsF b)
    rw [hcells]
    exact Finset.disjoint_empty_right _
  · intro t ht
    rw [List.mem_append] at ht
    rcases ht with ht | ht
    · exact hsub t ht
    · rw [List.mem_singleton] at ht
      subst ht
      rw [hcells]
      exact Finset.empty_subset _

theorem Inv_push_go (s : SState) (sec : Section) (hinv : Inv s)
    (hc : hasConflict sec.time_slots s.occupied = false) :
    Inv ⟨s.results, (occupy sec.time_slots s.occupied).2, s.choice ++ [sec]⟩ := by
  obtain ⟨hpw, hsub, hres⟩ := hinv
  have hdisj : Disjoint (cellsF sec) s.occupied := (hasConflict_sec_iff sec s.occupied).mp hc
  have hocc2 : (occupy sec.time_slots s.occupied).2 = s.occupied ∪ cellsF sec := by
    rw [occupy_eq]
    rfl
  refine ⟨?_, ?_, hres⟩
  · rw [List.pairwise_append]
    refine ⟨hpw, List.pairwise_singleton _ _, ?_⟩
    intro a ha b hb
    rw [List.mem_singleton] at hb
    subst hb
    show Disjoint (cellsF a) (cellsF b)
    exact (hdisj.mono_right (hsub a ha)).symm
  · intro t ht
    rw [hocc2]
    rw [List.mem_append] at ht
    rcases ht with ht | ht
    · exact (hsub t ht).trans Finset.subset_union_left
    · rw [List.mem_singleton] at ht
      subst ht
      exact Finset.subset_union_right

theorem sectLoop_pairwise (recur : SState → SState)
    (hshape : ∀ st, ∃ new, recur st = ⟨st.results ++ new, st.occupied, st.choice⟩)
    (hrec : ∀ st, Inv st → ∀ r ∈ (recur st).results, r.Pairwise SDisj) :
    ∀ (secs : List Section) (s : SState), Inv s →
      ∀ r ∈ (sectLoop recur secs s).results, r.Pairwise SDisj := by
  intro secs
  induction secs with
  | nil => intro s hinv r hr; exact hinv.2.2 r hr
  | cons sec more ih =>
    intro s hinv r hr
    by_cases hemp : sec.time_slots.isEmpty = true
    · rw [sectLoop_cons_empty recur sec more s hemp] at hr
      obtain ⟨n1, h1⟩ := hshape ⟨s.results, s.occupied, s.choice ++ [sec]⟩
      simp only [h1] at hr
      have hresOK : ∀ r2 ∈ s.results ++ n1, r2.Pairwise SDisj := by
        have := hrec ⟨s.results, s.occupied, s.choice ++ [sec]⟩
          (Inv_push_empty s sec hinv hemp)
        rw [h1] at this
        exact this
      refine ih ⟨s.results ++ n1, s.occupied, (s.choice ++ [sec]).dropLast⟩
        ⟨?_, ?_, hresOK⟩ r hr
      · rw [List.dropLast_concat]; exact hinv.1
      · rw [List.dropLast_concat]; exact hinv.2.1
    · rw [Bool.not_eq_true] at hemp
      by_cases hc : hasConflict sec.time_slots s.occupied = true
      · rw [sectLoop_cons_conflict recur sec more s hemp hc] at hr
        exact ih s hinv r hr
      · rw [Bool.not_eq_true] at hc
        rw [sectLoop_cons_go recur sec more s hemp hc] at hr
        obtain ⟨n1, h1⟩ :=
          hshape ⟨s.results, (occupy sec.time_slots s.occupied).2, s.choice ++ [sec]⟩
        simp only [h1] at hr
        have hresOK : ∀ r2 ∈ s.results ++ n1, r2.Pairwise SDisj := by
          have := hrec ⟨s.results, (occupy sec.time_slots s.occupied).2, s.choice ++ [sec]⟩
            (Inv_push_go s sec hinv hc)
          rw [h1] at this
          exact this
        rw [release_occupy sec.time_slots s.occupied hc] at hr
        refine ih ⟨s.results ++ n1, s.occupied, (s.choice ++ [sec]).dropLast⟩
          ⟨?_, ?_, hresOK⟩ r hr
        · rw [List.dropLast_concat]; exact hinv.1
        · rw [List.dropLast_concat]; exact hinv.2.1

theorem backtrack_pairwise (mr : Int) :
    ∀ (rem : List Course) (s : SState), Inv s →
      ∀ r ∈ (backtrack mr rem s).results, r.Pairwise SDisj := by
  intro rem
  induction rem with
  | nil =>
    intro s hinv r hr
    by_cases h : (s.results.length : Int) ≥ mr
    · rw [backtrack_stop mr [] s h] at hr
      exact hinv.2.2 r hr
    · rw [backtrack_nil mr s h] at hr
      simp only [List.mem_append, List.mem_singleton] at hr
      rcases hr with hr | hr
      · exact hinv.2.2 r hr
      · subst hr; exact hinv.1
  | cons course rest ih =>
    intro s hinv r hr
    by_cases h : (s.results.length : Int) ≥ mr
    · rw [backtrack_stop mr (course :: rest) s h] at hr
      exact hinv.2.2 r hr
    · rw [backtrack_cons mr course rest s h] at hr
      exact sectLoop_pairwise (backtrack mr rest) (backtrack_shape mr rest)
        (fun st hst => ih st hst) course.sections s hinv r hr

theorem solve_pairwise (courses : List Course) (mr : Int) :
    ∀ r ∈ solve courses mr, r.Pairwise SDisj := by
  intro r hr
  unfold solve at hr
  by_cases h0 : courses.isEmpty
  · rw [if_pos h0] at hr; cases hr
  · rw [if_neg h0] at hr
    by_cases h1 : (courses.filter (fun c => !c.sections.isEmpty)).isEmpty
    · rw [if_pos h1] at hr; cases hr
    · rw [if_neg h1] at hr
      refine backtrack_pairwise mr _ ⟨[], ∅, []⟩ ?_ r hr
      exact ⟨List.Pairwise.nil, by simp, by simp⟩

end CourseSched

namespace CourseSched

/-! Every accepted result extends the current choice by exactly one
section per remaining course, in course order. -/

theorem sectLoop_extension (recur : SState → SState) (rest : List Course)
    (course : Course)
    (hshape : ∀ st, ∃ new, recur st = ⟨st.results ++ new, st.occupied, st.choice⟩)
    (hrec : ∀ st r, r ∈ (recur st).results → r ∈ st.results ∨
      ∃ ext, r = st.choice ++ ext ∧
        List.Forall₂ (fun sec c => sec ∈ c.sections) ext rest) :
    ∀ (secs : List Section) (s : SState) (r : List Section),
      (∀ sec ∈ secs, sec ∈ course.sections) →
      r ∈ (sectLoop recur secs s).results → r ∈ s.results ∨
        ∃ ext, r = s.choice ++ ext ∧
          List.Forall₂ (fun sec c => sec ∈ c.sections) ext (course :: rest) := by
  intro secs
  induction secs with
  | nil => intro s r hsub hr; exact Or.inl hr
  | cons sec more ih =>
    intro s r hsub hr
    have hsec : sec ∈ course.sections := hsub sec (List.mem_cons_self sec more)
    have hsub2 : ∀ t ∈ more, t ∈ course.sections :=
      fun t ht => hsub t (List.mem_cons_of_mem sec ht)
    by_cases hemp : sec.time_slots.isEmpty = true
    · rw [sectLoop_cons_empty recur sec more s hemp] at hr
      rcases ih ⟨(recur ⟨s.results, s.occupied, s.choice ++ [sec]⟩).results,
          (recur ⟨s.results, s.occupied, s.choice ++ [sec]⟩).occupied,
          (recur ⟨s.results, s.occupied, s.choice ++ [sec]⟩).choice.dropLast⟩
          r hsub2 hr with hin | hext
      · rcases hrec ⟨s.results, s.occupied, s.choice ++ [sec]⟩ r hin with hin2 | hext2
        · exact Or.inl hin2
        · obtain ⟨ext, hre, hfa⟩ := hext2
          refine Or.inr ⟨sec :: ext, ?_, List.forall₂_cons.mpr ⟨hsec, hfa⟩⟩
          rw [hre]
          simp
      · obtain ⟨ext, hre, hfa⟩ := hext
        have hch : (recur ⟨s.results, s.occupied, s.choice ++ [sec]⟩).choice.dropLast
            = s.choice := by
          obtain ⟨n1, h1⟩ := hshape ⟨s.results, s.occupied, s.choice ++ [sec]⟩
          rw [h1]
          exact List.dropLast_concat
        rw [hch] at hre
        exact Or.inr ⟨ext, hre, hfa⟩
    · rw [Bool.not_eq_true] at hemp
      by_cases hc : hasConflict sec.time_slots s.occupied = true
      · rw [sectLoop_cons_conflict recur sec more s hemp hc] at hr
        exact ih s r hsub2 hr
      · rw [Bool.not_eq_true] at hc
        rw [sectLoop_cons_go recur sec more s hemp hc] at hr
        rcases ih _ r hsub2 hr with hin | hext
        · rcases hrec ⟨s.results, (occupy sec.time_slots s.occupied).2, s.choice ++ [sec]⟩
            r hin with hin2 | hext2
          · exact Or.inl hin2
          · obtain ⟨ext, hre, hfa⟩ := hext2
            refine Or.inr ⟨sec :: ext, ?_, List.forall₂_cons.mpr ⟨hsec, hfa⟩⟩
            rw [hre]
            simp
        · obtain ⟨ext, hre, hfa⟩ := hext
          have hch : (recur ⟨s.results, (occupy sec.time_slots s.occupied).2,
              s.choice ++ [sec]⟩).choice.dropLast = s.choice := by
            obtain ⟨n1, h1⟩ := hshape ⟨s.results, (occupy sec.time_slots s.occupied).2,
              s.choice ++ [sec]⟩
            rw [h1]
            exact List.dropLast_concat
          rw [hch] at hre
          exact Or.inr ⟨ext, hre, hfa⟩

theorem backtrack_extension (mr : Int) :
    ∀ (rem : List Course) (s : SState) (r : List Section),
      r ∈ (backtrack mr rem s).results → r ∈ s.results ∨
        ∃ ext, r = s.choice ++ ext ∧
          List.Forall₂ (fun sec c => sec ∈ c.sections) ext rem := by
  intro rem
  induction rem with
  | nil =>
    intro s r hr
    by_cases h : (s.results.length : Int) ≥ mr
    · rw [backtrack_stop mr [] s h] at hr
      exact Or.inl hr
    · rw [backtrack_nil mr s h] at hr
      simp only [List.mem_append, List.mem_singleton] at hr
      rcases hr with hr | hr
      · exact Or.inl hr
      · exact Or.inr ⟨[], by simp [hr], List.Forall₂.nil⟩
  | cons course rest ih =>
    intro s r hr
    by_cases h : (s.results.length : Int) ≥ mr
    · rw [backtrack_stop mr (course :: rest) s h] at hr
      exact Or.inl hr
    · rw [backtrack_cons mr course rest s h] at hr
      exact sectLoop_extension (backtrack mr rest) rest course
        (backtrack_shape mr rest)
        (fun st r2 hr2 => ih st r2 hr2) course.sections s r (fun _ ht => ht) hr

/-! The result count never exceeds the cap when the cap is
nonnegative. -/

theorem sectLoop_count (mr : Int) (recur : SState → SState)
    (hrec : ∀ st, (st.results.length : Int) ≤ mr →
      ((recur st).results.length : Int) ≤ mr) :
    ∀ (secs : List Section) (s : SState), (s.results.length : Int) ≤ mr →
      ((sectLoop recur secs s).results.length : Int) ≤ mr := by
  intro secs
  induction secs with
  | nil => intro s hs; exact hs
  | cons sec more ih =>
    intro s hs
    by_cases hemp : sec.time_slots.isEmpty = true
    · rw [sectLoop_cons_empty recur sec more s hemp]
      exact ih _ (hrec ⟨s.results, s.occupied, s.choice ++ [sec]⟩ hs)
    · rw [Bool.not_eq_true] at hemp
      by_cases hc : hasConflict sec.time_slots s.occupied = true
      · rw [sectLoop_cons_conflict recur sec more s hemp hc]
        exact ih s hs
      · rw [Bool.not_eq_true] at hc
        rw [sectLoop_cons_go recur sec more s hemp hc]
        exact ih _ (hrec ⟨s.results, (occupy sec.time_slots s.occupied).2,
          s.choice ++ [sec]⟩ hs)

theorem backtrack_count (mr : Int) :
    ∀ (rem : List Course) (s : SState), (s.results.length : Int) ≤ mr →
      ((backtrack mr rem s).results.length : Int) ≤ mr := by
  intro rem
  induction rem with
  | nil =>
    intro s hs
    by_cases h : (s.results.length : Int) ≥ mr
    · rw [backtrack_stop mr [] s h]; exact hs
    · rw [backtrack_nil mr s h]
      have : ¬ ((s.results.length : Int) ≥ mr) := h
      simp only [List.length_append, List.length_singleton]
      push_cast
      omega
  | cons course rest ih =>
    intro s hs
    by_cases h : (s.results.length : Int) ≥ mr
    · rw [backtrack_stop mr (course :: rest) s h]; exact hs
    · rw [backtrack_cons mr course rest s h]
      exact sectLoop_count mr (backtrack mr rest) (fun st hst => ih st hst)
        course.sections s hs

end CourseSched

namespace CourseSched

/-! Unfolding equations for the instrumented engine. -/

theorem sectLoopT_nil (recur : SState → SState × List SEvent) (s : SState) :
    sectLoopT recur [] s = (s, []) := rfl

theorem sectLoopT_cons_empty (recur : SState → SState × List SEvent) (sec : Section)
    (more : List Section) (s : SState) (h : sec.time_slots.isEmpty = true) :
    sectLoopT recur (sec :: more) s =
      (let r1 := recur ⟨s.results, s.occupied, s.choice ++ [sec]⟩
       let r2 := sectLoopT recur more ⟨r1.1.results, r1.1.occupied, r1.1.choice.dropLast⟩
       (r2.1, SEvent.choose sec :: (r1.2 ++ r2.2))) := by
  rw [sectLoopT, if_pos h]

theorem sectLoopT_cons_conflict (recur : SState → SState × List SEvent) (sec : Section)
    (more : List Section) (s : SState) (h : sec.time_slots.isEmpty = false)
    (hc : hasConflict sec.time_slots s.occupied = true) :
    sectLoopT recur (sec :: more) s =
      (let r2 := sectLoopT recur more s
       (r2.1, SEvent.check sec :: r2.2)) := by
  rw [sectLoopT, if_neg (by simp [h]), if_pos hc]

theorem sectLoopT_cons_go (recur : SState → SState × List SEvent) (sec : Section)
    (more : List Section) (s : SState) (h : sec.time_slots.isEmpty = false)
    (hc : hasConflict sec.time_slots s.occupied = false) :
    sectLoopT recur (sec :: more) s =
      (let ao := occupy sec.time_slots s.occupied
       let r1 := recur ⟨s.results, ao.2, s.choice ++ [sec]⟩
       let r2 := sectLoopT recur more
         ⟨r1.1.results, release ao.1 r1.1.occupied, r1.1.choice.dropLast⟩
       (r2.1, SEvent.check sec :: SEvent.occupyEv sec :: SEvent.choose sec ::
         (r1.2 ++ r2.2))) := by
  rw [sectLoopT, if_neg (by simp [h]), if_neg (by simp [hc])]

theorem backtrackT_stop (mr : Int) (rem : List Course) (s : SState)
    (h : (s.results.length : Int) ≥ mr) : backtrackT mr rem s = (s, []) := by
  rw [backtrackT.eq_def]
  exact if_pos h

theorem backtrackT_nil (mr : Int) (s : SState)
    (h : ¬ (s.results.length : Int) ≥ mr) :
    backtrackT mr [] s =
      (⟨s.results ++ [s.choice], s.occupied, s.choice⟩,
       [SEvent.expand s.results.length, SEvent.record s.choice]) := by
  rw [backtrackT, if_neg h]

theorem backtrackT_cons (mr : Int) (course : Course) (rest : List Course) (s : SState)
    (h : ¬ (s.results.length : Int) ≥ mr) :
    backtrackT mr (course :: rest) s =
      (let r := sectLoopT (backtrackT mr rest) course.sections s
       (r.1, SEvent.expand s.results.length :: r.2)) := by
  rw [backtrackT, if_neg h]

/-! The instrumented engine computes the same state as the plain one. -/

theorem sectLoopT_fst (recurT : SState → SState × List SEvent)
    (recur : SState → SState) (hrt : ∀ st, (recurT st).1 = recur st) :
    ∀ (secs : List Section) (s : SState),
      (sectLoopT recurT secs s).1 = sectLoop recur secs s := by
  intro secs
  induction secs with
  | nil => intro s; rfl
  | cons sec more ih =>
    intro s
    by_cases hemp : sec.time_slots.isEmpty = true
    · rw [sectLoopT_cons_empty recurT sec more s hemp,
        sectLoop_cons_empty recur sec more s hemp]
      simp only [hrt]
      exact ih _
    · rw [Bool.not_eq_true] at hemp
      by_cases hc : hasConflict sec.time_slots s.occupied = true
      · rw [sectLoopT_cons_conflict recurT sec more s hemp hc,
          sectLoop_cons_conflict recur sec more s hemp hc]
        exact ih s
      · rw [Bool.not_eq_true] at hc
        rw [sectLoopT_cons_go recurT sec more s hemp hc,
          sectLoop_cons_go recur sec more s hemp hc]
        simp only [hrt]
        exact ih _

theorem backtrackT_fst (mr : Int) :
    ∀ (rem : List Course) (s : SState),
      (backtrackT mr rem s).1 = backtrack mr rem s := by
  intro rem
  induction rem with
  | nil =>
    intro s
    by_cases h : (s.results.length : Int) ≥ mr
    · rw [backtrackT_stop mr [] s h, backtrack_stop mr [] s h]
    · rw [backtrackT_nil mr s h, backtrack_nil mr s h]
  | cons course rest ih =>
    intro s
    by_cases h : (s.results.length : Int) ≥ mr
    · rw [backtrackT_stop mr (course :: rest) s h, backtrack_stop mr (course :: rest) s h]
    · rw [backtrackT_cons mr course rest s h, backtrack_cons mr course rest s h]
      exact sectLoopT_fst (backtrackT mr rest) (backtrack mr rest) ih course.sections s

/-! Well-formedness of every recorded event: an expansion only ever
happens while the accepted-result count is strictly below the cap, and
conflict queries and occupations only ever concern sections with a
nonempty time-slot list. -/

/-- The property checked of each event in the trace. -/
def TraceOK (mr : Int) : SEvent → Prop
  | SEvent.expand n => (n : Int) < mr
  | SEvent.check sec => sec.time_slots ≠ []
  | SEvent.occupyEv sec => sec.time_slots ≠ []
  | _ => True

theorem sectLoopT_traceOK (mr : Int) (recurT : SState → SState × List SEvent)
    (hrt : ∀ st e, e ∈ (recurT st).2 → TraceOK mr e) :
    ∀ (secs : List Section) (s : SState) (e : SEvent),
      e ∈ (sectLoopT recurT secs s).2 → TraceOK mr e := by
  intro secs
  induction secs with
  | nil => intro s e he; cases he
  | cons sec more ih =>
    intro s e he
    by_cases hemp : sec.time_slots.isEmpty = true
    · rw [sectLoopT_cons_empty recurT sec more s hemp] at he
      simp only [List.mem_cons, List.mem_append] at he
      rcases he with he | he | he
      · subst he; trivial
      · exact hrt _ e he
      · exact ih _ e he
    · rw [Bool.not_eq_true] at hemp
      have hne : sec.time_slots ≠ [] := by
        intro hnil
        rw [hnil] at hemp
        cases hemp
      by_cases hc : hasConflict sec.time_slots s.occupied = true
      · rw [sectLoopT_cons_conflict recurT sec more s hemp hc] at he
        simp only [List.mem_cons] at he
        rcases he with he | he
        · subst he; exact hne
        · exact ih s e he
      · rw [Bool.not_eq_true] at hc
        rw [sectLoopT_cons_go recurT sec more s hemp hc] at he
        simp only [List.mem_cons, List.mem_append] at he
        rcases he with he | he | he | he | he
        · subst he; exact hne
        · subst he; exact hne
        · subst he; trivial
        · exact hrt _ e he
        · exact ih _ e he

theorem backtrackT_traceOK (mr : Int) :
    ∀ (rem : List Course) (s : SState) (e : SEvent),
      e ∈ (backtrackT mr rem s).2 → TraceOK mr e := by
  intro rem
  induction rem with
  | nil =>
    intro s e he
    by_cases h : (s.results.length : Int) ≥ mr
    · rw [backtrackT_stop mr [] s h] at he
      cases he
    · rw [backtrackT_nil mr s h] at he
      simp only [List.mem_cons, List.not_mem_nil, or_false] at he
      rcases he with he | he
      · subst he
        show (s.results.length : Int) < mr
        omega
      · subst he; trivial
  | cons course rest ih =>
    intro s e he
    by_cases h : (s.results.length : Int) ≥ mr
    · rw [backtrackT_stop mr (course :: rest) s h] at he
      cases he
    · rw [backtrackT_cons mr course rest s h] at he
      simp only [List.mem_cons] at he
      rcases he with he | he
      · subst he
        show (s.results.length : Int) < mr
        omega
      · exact sectLoopT_traceOK mr (backtrackT mr rest) ih course.sections s e he

theorem solveTrace_traceOK (courses : List Course) (mr : Int) :
    ∀ e ∈ solveTrace courses mr, TraceOK mr e := by
  intro e he
  unfold solveTrace at he
  by_cases h0 : courses.isEmpty
  · rw [if_pos h0] at he; cases he
  · rw [if_neg h0] at he
    by_cases h1 : (courses.filter (fun c => !c.sections.isEmpty)).isEmpty
    · rw [if_pos h1] at he; cases he
    · rw [if_neg h1] at he
      exact backtrackT_traceOK mr _ ⟨[], ∅, []⟩ e he

end CourseSched

namespace CourseSched

/-! With a cap large enough for the whole subtree, the engine returns
exactly the valid combinations reachable from the current state. -/

theorem validFromL_cons (occ : Finset Cell) (c : Course) (rest : List Course) :
    validFromL occ (c :: rest) = validFromSecs occ c.sections rest := rfl

theorem validFromSecs_cons (occ : Finset Cell) (sec : Section) (more : List Section)
    (rest : List Course) :
    validFromSecs occ (sec :: more) rest =
      (if Disjoint (cellsF sec) occ then
        (validFromL (occ ∪ cellsF sec) rest).map (sec :: ·)
      else []) ++ validFromSecs occ more rest := by
  unfold validFromSecs
  rw [List.flatMap_cons]

theorem map_cons_append (ch : List Section) (sec : Section) (L : List (List Section)) :
    (L.map (sec :: ·)).map (ch ++ ·) = L.map ((ch ++ [sec]) ++ ·) := by
  rw [List.map_map]
  refine List.map_congr_left ?_
  intro l _
  show ch ++ (sec :: l) = (ch ++ [sec]) ++ l
  simp

theorem sectLoop_exact (mr : Int) (rest : List Course)
    (hrec : ∀ st : SState,
      (st.results.length : Int) + ((validFromL st.occupied rest).length : Int) ≤ mr →
      backtrack mr rest st =
        ⟨st.results ++ (validFromL st.occupied rest).map (st.choice ++ ·),
         st.occupied, st.choice⟩) :
    ∀ (secs : List Section) (s : SState),
      (s.results.length : Int) + ((validFromSecs s.occupied secs rest).length : Int) ≤ mr →
      sectLoop (backtrack mr rest) secs s =
        ⟨s.results ++ (validFromSecs s.occupied secs rest).map (s.choice ++ ·),
         s.occupied, s.choice⟩ := by
  intro secs
  induction secs with
  | nil =>
    intro s _
    show s = _
    simp [validFromSecs]
  | cons sec more ih =>
    intro s h
    rw [validFromSecs_cons] at h ⊢
    by_cases hemp : sec.time_slots.isEmpty = true
    · have hcells : cellsF sec = ∅ := cellsF_eq_empty sec (List.isEmpty_iff.mp hemp)
      rw [hcells, Finset.union_empty, if_pos (Finset.disjoint_empty_left _)] at h ⊢
      rw [sectLoop_cons_empty _ sec more s hemp]
      rw [List.length_append, List.length_map] at h
      push_cast at h
      have ha1 : ((s.results.length : Int)
          + ((validFromL s.occupied rest).length : Int)) ≤ mr := by omega
      have h1 := hrec ⟨s.results, s.occupied, s.choice ++ [sec]⟩ ha1
      simp only [h1, List.dropLast_concat]
      have ha2 : (((s.results
            ++ (validFromL s.occupied rest).map ((s.choice ++ [sec]) ++ ·)).length : Int)
          + ((validFromSecs s.occupied more rest).length : Int)) ≤ mr := by
        rw [List.length_append, List.length_map]
        push_cast
        omega
      have h2 := ih ⟨s.results ++ (validFromL s.occupied rest).map ((s.choice ++ [sec]) ++ ·),
        s.occupied, s.choice⟩ ha2
      rw [h2]
      simp only [SState.mk.injEq, and_true]
      rw [List.map_append, map_cons_append, List.append_assoc]
    · rw [Bool.not_eq_true] at hemp
      by_cases hc : hasConflict sec.time_slots s.occupied = true
      · have hnd : ¬ Disjoint (cellsF sec) s.occupied := by
          intro hd
          rw [← hasConflict_sec_iff sec s.occupied] at hd
          rw [hd] at hc
          cases hc
        rw [if_neg hnd] at h ⊢
        rw [sectLoop_cons_conflict _ sec more s hemp hc]
        rw [List.nil_append] at h ⊢
        exact ih s h
      · rw [Bool.not_eq_true] at hc
        have hd : Disjoint (cellsF sec) s.occupied := (hasConflict_sec_iff sec s.occupied).mp hc
        rw [if_pos hd] at h ⊢
        rw [sectLoop_cons_go _ sec more s hemp hc]
        have hocc2 : (occupy sec.time_slots s.occupied).2 = s.occupied ∪ cellsF sec := by
          rw [occupy_eq]
          rfl
        rw [List.length_append, List.length_map] at h
        push_cast at h
        have ha1 : (((⟨s.results, (occupy sec.time_slots s.occupied).2,
              s.choice ++ [sec]⟩ : SState).results.length : Int)
            + ((validFromL (⟨s.results, (occupy sec.time_slots s.occupied).2,
              s.choice ++ [sec]⟩ : SState).occupied rest).length : Int)) ≤ mr := by
          show ((s.results.length : Int)
            + ((validFromL (occupy sec.time_slots s.occupied).2 rest).length : Int)) ≤ mr
          rw [hocc2]
          omega
        have h1 := hrec ⟨s.results, (occupy sec.time_slots s.occupied).2,
          s.choice ++ [sec]⟩ ha1
        rw [hocc2] at h1
        simp only [hocc2] at h1 ⊢
        simp only [h1, List.dropLast_concat]
        have hrel : release (occupy sec.time_slots s.occupied).1 (s.occupied ∪ cellsF sec)
            = s.occupied := by
          rw [← hocc2]
          exact release_occupy sec.time_slots s.occupied hc
        rw [hrel]
        have ha2 : (((s.results ++ (validFromL (s.occupied ∪ cellsF sec) rest).map
              ((s.choice ++ [sec]) ++ ·)).length : Int)
            + ((validFromSecs s.occupied more rest).length : Int)) ≤ mr := by
          rw [List.length_append, List.length_map]
          push_cast
          omega
        have h2 := ih ⟨s.results
            ++ (validFromL (s.occupied ∪ cellsF sec) rest).map ((s.choice ++ [sec]) ++ ·),
          s.occupied, s.choice⟩ ha2
        rw [h2]
        simp only [SState.mk.injEq, and_true]
        rw [List.map_append, map_cons_append, List.append_assoc]

theorem backtrack_exact (mr : Int) :
    ∀ (rem : List Course) (s : SState),
      (s.results.length : Int) + ((validFromL s.occupied rem).length : Int) ≤ mr →
      backtrack mr rem s =
        ⟨s.results ++ (validFromL s.occupied rem).map (s.choice ++ ·),
         s.occupied, s.choice⟩ := by
  intro rem
  induction rem with
  | nil =>
    intro s h
    by_cases hstop : (s.results.length : Int) ≥ mr
    · rw [backtrack_stop mr [] s hstop]
      have : ((validFromL s.occupied []).length : Int) = 0 := by
        simp [validFromL] at h ⊢
        omega
      have hnil : validFromL s.occupied [] = [] := by
        rw [← List.length_eq_zero]
        omega
      rw [hnil]
      simp
    · rw [backtrack_nil mr s hstop]
      show _ = SState.mk (s.results ++ [[]].map (s.choice ++ ·)) s.occupied s.choice
      simp
  | cons course rest ih =>
    intro s h
    by_cases hstop : (s.results.length : Int) ≥ mr
    · rw [backtrack_stop mr (course :: rest) s hstop]
      have hnil : validFromL s.occupied (course :: rest) = [] := by
        rw [← List.length_eq_zero]
        omega
      rw [hnil]
      simp
    · rw [backtrack_cons mr course rest s hstop]
      rw [validFromL_cons] at h ⊢
      exact sectLoop_exact mr rest ih course.sections s h

end CourseSched

namespace CourseSched

/-! The engine's reachable-combination list is the filtered cartesian
product, and the multiset view of the valid combinations is invariant
under permutation of the course list. -/

theorem flatMap_congr_left {α β : Type} (l : List α) (f g : α → List β)
    (h : ∀ a ∈ l, f a = g a) : l.flatMap f = l.flatMap g := by
  induction l with
  | nil => rfl
  | cons a rest ih =>
    rw [List.flatMap_cons, List.flatMap_cons,
      h a (List.mem_cons_self a rest),
      ih (fun b hb => h b (List.mem_cons_of_mem a hb))]

/-- The validity test of validFromL, as a boolean predicate on a
candidate combination. -/
def okFromB (occ : Finset Cell) (l : List Section) : Bool :=
  l.all (fun t => decide (Disjoint (cellsF t) occ)) && okB l

theorem okFromB_cons (occ : Finset Cell) (sec : Section) (l : List Section) :
    okFromB occ (sec :: l) = true ↔
      Disjoint (cellsF sec) occ ∧ okFromB (occ ∪ cellsF sec) l = true := by
  show (((sec :: l).all fun t => decide (Disjoint (cellsF t) occ))
      && (allDisjB sec l && okB l)) = true ↔ _
  simp only [okFromB, List.all_cons, allDisjB, Bool.and_eq_true, decide_eq_true_eq,
    List.all_eq_true, Finset.disjoint_union_right]
  constructor
  · rintro ⟨⟨hsec, hall⟩, hdisj, hok⟩
    refine ⟨hsec, fun t ht => ⟨hall t ht, ?_⟩, hok⟩
    exact (hdisj t ht).symm
  · rintro ⟨hsec, hall, hok⟩
    exact ⟨⟨hsec, fun t ht => (hall t ht).1⟩, fun t ht => ((hall t ht).2).symm, hok⟩

theorem validFromL_eq_filter :
    ∀ (cs : List Course) (occ : Finset Cell),
      validFromL occ cs = (combos cs).filter (okFromB occ) := by
  intro cs
  induction cs with
  | nil =>
    intro occ
    show [[]] = List.filter _ [[]]
    simp [okFromB, okB]
  | cons c rest ih =>
    intro occ
    show c.sections.flatMap _ = List.filter _ (combos (c :: rest))
    rw [show combos (c :: rest) = c.sections.flatMap
        (fun sec => (combos rest).map (sec :: ·)) from rfl]
    rw [List.filter_flatMap]
    apply flatMap_congr_left
    intro sec _
    rw [List.filter_map]
    by_cases hd : Disjoint (cellsF sec) occ
    · rw [if_pos hd, ih (occ ∪ cellsF sec)]
      congr 1
      apply List.filter_congr
      intro l _
      rw [Bool.eq_iff_iff]
      show okFromB (occ ∪ cellsF sec) l = true ↔ okFromB occ (sec :: l) = true
      rw [okFromB_cons]
      exact ⟨fun h => ⟨hd, h⟩, fun h => h.2⟩
    · rw [if_neg hd]
      have : (combos rest).filter (okFromB occ ∘ (sec :: ·)) = [] := by
        rw [List.filter_eq_nil_iff]
        intro l _ hfa
        exact hd ((okFromB_cons occ sec l).mp hfa).1
      rw [this]
      rfl

theorem okFromB_empty (l : List Section) : okFromB ∅ l = okB l := by
  unfold okFromB
  rw [Bool.eq_iff_iff, Bool.and_eq_true]
  simp [List.all_eq_true]

theorem validFromL_empty_eq (cs : List Course) :
    validFromL ∅ cs = validCombos cs := by
  rw [validFromL_eq_filter]
  unfold validCombos
  exact List.filter_congr (fun l _ => okFromB_empty l)

theorem allDisjB_cons (s t : Section) (l : List Section) :
    allDisjB s (t :: l) = (decide (SDisj s t) && allDisjB s l) := rfl

theorem okB_cons (sec : Section) (l : List Section) :
    okB (sec :: l) = (allDisjB sec l && okB l) := rfl

theorem validCombos_cons (c : Course) (cs : List Course) :
    validCombos (c :: cs) = c.sections.flatMap (fun sec =>
      ((validCombos cs).filter (allDisjB sec)).map (sec :: ·)) := by
  unfold validCombos
  rw [show combos (c :: cs) = c.sections.flatMap
      (fun sec => (combos cs).map (sec :: ·)) from rfl]
  rw [List.filter_flatMap]
  apply flatMap_congr_left
  intro sec _
  rw [List.filter_map, List.filter_filter]
  rfl

theorem SDisj_comm (a b : Section) : SDisj a b ↔ SDisj b a := by
  unfold SDisj
  exact disjoint_comm

theorem map_msOf_cons (sec : Section) (L : List (List Section)) :
    (L.map (sec :: ·)).map msOf = (L.map msOf).map (sec ::ₘ ·) := by
  rw [List.map_map, List.map_map]
  rfl

theorem map_msOf_filter_allDisj (sec : Section) (V : List (List Section)) :
    (V.filter (allDisjB sec)).map msOf =
      (V.map msOf).filter (fun m => decide (∀ t ∈ m, SDisj sec t)) := by
  rw [List.filter_map]
  congr 1
  apply List.filter_congr
  intro l _
  show allDisjB sec l = decide (∀ t ∈ (l : Multiset Section), SDisj sec t)
  rw [Bool.eq_iff_iff]
  simp [allDisjB, List.all_eq_true, Multiset.mem_coe]

theorem filter_const_and {α : Type} (b : Bool) (p : α → Bool) (X : List α) :
    X.filter (fun l => b && p l) = if b then X.filter p else [] := by
  cases b <;> simp

theorem flatMap_flatMap_perm {α β γ : Type} (l1 : List α) (l2 : List β)
    (h : α → β → List γ) :
    (l1.flatMap fun a => l2.flatMap fun b => h a b).Perm
      (l2.flatMap fun b => l1.flatMap fun a => h a b) := by
  rw [← Multiset.coe_eq_coe]
  have h1 : ((l1.flatMap fun a => l2.flatMap fun b => h a b : List γ) : Multiset γ)
      = (l1 : Multiset α).bind
          (fun a => (l2 : Multiset β).bind fun b => (h a b : Multiset γ)) := by
    rw [← Multiset.coe_bind]
    congr 1
    funext a
    rw [← Multiset.coe_bind]
  have h2 : ((l2.flatMap fun b => l1.flatMap fun a => h a b : List γ) : Multiset γ)
      = (l2 : Multiset β).bind
          (fun b => (l1 : Multiset α).bind fun a => (h a b : Multiset γ)) := by
    rw [← Multiset.coe_bind]
    congr 1
    funext b
    rw [← Multiset.coe_bind]
  rw [h1, h2]
  exact Multiset.bind_bind _ _

end CourseSched

namespace CourseSched

theorem validCombos_cons_msOf (c : Course) (l : List Course) :
    (validCombos (c :: l)).map msOf =
      c.sections.flatMap (fun s =>
        (((validCombos l).map msOf).filter
          (fun m => decide (∀ u ∈ m, SDisj s u))).map (s ::ₘ ·)) := by
  rw [validCombos_cons, List.map_flatMap]
  apply flatMap_congr_left
  intro sec _
  rw [map_msOf_cons, map_msOf_filter_allDisj]

theorem validCombos_cons2_msOf (a b : Course) (l : List Course) :
    (validCombos (a :: b :: l)).map msOf =
      a.sections.flatMap (fun s => b.sections.flatMap (fun t =>
        if decide (SDisj s t) then
          (((validCombos l).map msOf).filter
            (fun m => decide (∀ u ∈ m, SDisj s u) && decide (∀ u ∈ m, SDisj t u))).map
            (fun m => s ::ₘ t ::ₘ m)
        else [])) := by
  rw [validCombos_cons_msOf, validCombos_cons_msOf]
  apply flatMap_congr_left
  intro s _
  rw [List.filter_flatMap, List.map_flatMap]
  apply flatMap_congr_left
  intro t _
  rw [List.filter_map, List.filter_filter]
  have hpred : ∀ m ∈ (validCombos l).map msOf,
      (((fun m => decide (∀ u ∈ m, SDisj s u)) ∘ (t ::ₘ ·)) m
        && decide (∀ u ∈ m, SDisj t u))
      = (decide (SDisj s t)
        && (decide (∀ u ∈ m, SDisj s u) && decide (∀ u ∈ m, SDisj t u))) := by
    intro m _
    show (decide (∀ u ∈ t ::ₘ m, SDisj s u) && _) = _
    rw [Bool.eq_iff_iff]
    simp only [Bool.and_eq_true, decide_eq_true_eq, Multiset.forall_mem_cons]
    tauto
  rw [List.filter_congr hpred, filter_const_and]
  by_cases hst : decide (SDisj s t) = true
  · rw [if_pos hst, if_pos hst, List.map_map]
    rfl
  · rw [Bool.not_eq_true] at hst
    rw [hst]
    simp

theorem validCombos_perm {cs1 cs2 : List Course} (h : cs1.Perm cs2) :
    ((validCombos cs1).map msOf).Perm ((validCombos cs2).map msOf) := by
  induction h with
  | nil => exact List.Perm.refl _
  | cons c p ih =>
    rw [validCombos_cons_msOf, validCombos_cons_msOf]
    apply List.Perm.flatMap_left
    intro sec _
    exact (ih.filter _).map _
  | swap x y l =>
    rw [validCombos_cons2_msOf, validCombos_cons2_msOf]
    have hbody : ∀ (s t : Section),
        (if decide (SDisj t s) then
          (((validCombos l).map msOf).filter
            (fun m => decide (∀ u ∈ m, SDisj t u) && decide (∀ u ∈ m, SDisj s u))).map
            (fun m => t ::ₘ s ::ₘ m)
        else []) =
        (if decide (SDisj s t) then
          (((validCombos l).map msOf).filter
            (fun m => decide (∀ u ∈ m, SDisj s u) && decide (∀ u ∈ m, SDisj t u))).map
            (fun m => s ::ₘ t ::ₘ m)
        else []) := by
      intro s t
      have hc : decide (SDisj t s) = decide (SDisj s t) := by
        rw [decide_eq_decide]
        exact SDisj_comm t s
      rw [hc]
      by_cases hst : decide (SDisj s t) = true
      · rw [if_pos hst, if_pos hst]
        have hf : (((validCombos l).map msOf).filter
              (fun m => decide (∀ u ∈ m, SDisj t u) && decide (∀ u ∈ m, SDisj s u))) =
            (((validCombos l).map msOf).filter
              (fun m => decide (∀ u ∈ m, SDisj s u) && decide (∀ u ∈ m, SDisj t u))) := by
          apply List.filter_congr
          intro m _
          rw [Bool.and_comm]
        rw [hf]
        apply List.map_congr_left
        intro m _
        exact Multiset.cons_swap t s m
      · rw [Bool.not_eq_true] at hst
        rw [hst]
        simp
    have hswap := flatMap_flatMap_perm y.sections x.sections
      (fun t s =>
        if decide (SDisj t s) then
          (((validCombos l).map msOf).filter
            (fun m => decide (∀ u ∈ m, SDisj t u) && decide (∀ u ∈ m, SDisj s u))).map
            (fun m => t ::ₘ s ::ₘ m)
        else [])
    refine hswap.trans ?_
    have := flatMap_congr_left x.sections
      (fun s => y.sections.flatMap fun t =>
        if decide (SDisj t s) then
          (((validCombos l).map msOf).filter
            (fun m => decide (∀ u ∈ m, SDisj t u) && decide (∀ u ∈ m, SDisj s u))).map
            (fun m => t ::ₘ s ::ₘ m)
        else [])
      (fun s => y.sections.flatMap fun t =>
        if decide (SDisj s t) then
          (((validCombos l).map msOf).filter
            (fun m => decide (∀ u ∈ m, SDisj s u) && decide (∀ u ∈ m, SDisj t u))).map
            (fun m => s ::ₘ t ::ₘ m)
        else [])
      (fun s _ => flatMap_congr_left y.sections _ _ (fun t _ => hbody s t))
    rw [this]
  | trans p1 p2 ih1 ih2 => exact ih1.trans ih2

end CourseSched

namespace CourseSched

/-! Solve-level consequences. -/

theorem solve_empty_filter (courses : List Course) (mr : Int)
    (h : courses.filter (fun c => !c.sections.isEmpty) = []) :
    solve courses mr = [] := by
  unfold solve
  by_cases h0 : courses.isEmpty
  · rw [if_pos h0]
  · rw [if_neg h0, if_pos (by rw [h]; rfl)]

theorem solve_exact (courses : List Course) (mr : Int)
    (hne : courses.filter (fun c => !c.sections.isEmpty) ≠ [])
    (hcap : ((validCombos (courses.filter (fun c => !c.sections.isEmpty))).length : Int)
      < mr) :
    solve courses mr =
      validCombos (sortCourses (courses.filter (fun c => !c.sections.isEmpty))) := by
  have hc0 : courses ≠ [] := by
    intro h
    rw [h] at hne
    exact hne rfl
  unfold solve
  rw [if_neg (by rw [List.isEmpty_iff]; exact hc0),
    if_neg (by rw [List.isEmpty_iff]; exact hne)]
  have hlen : (validCombos (sortCourses
        (courses.filter (fun c => !c.sections.isEmpty)))).length =
      (validCombos (courses.filter (fun c => !c.sections.isEmpty))).length := by
    have hperm := validCombos_perm
      (List.perm_insertionSort
        (fun a b : Course => a.sections.length ≤ b.sections.length)
        (courses.filter (fun c => !c.sections.isEmpty)))
    have := hperm.length_eq
    rw [List.length_map, List.length_map] at this
    exact this
  have hb := backtrack_exact mr
    (sortCourses (courses.filter (fun c => !c.sections.isEmpty))) ⟨[], ∅, []⟩
    (by show (([] : List (List Section)).length : Int) + _ ≤ mr
        rw [validFromL_empty_eq, hlen]
        simp only [List.length_nil]
        push_cast
        omega)
  rw [hb]
  show [] ++ _ = _
  rw [List.nil_append, validFromL_empty_eq]
  have : ∀ L : List (List Section), L.map (([] : List Section) ++ ·) = L := by
    intro L
    induction L with
    | nil => rfl
    | cons x rest ih => rw [List.map_cons, ih, List.nil_append]
  exact this _

theorem solve_filter_eq (courses : List Course) (mr : Int) :
    solve courses mr = solve (courses.filter (fun c => !c.sections.isEmpty)) mr := by
  by_cases h1 : courses.filter (fun c => !c.sections.isEmpty) = []
  · rw [solve_empty_filter courses mr h1, h1]
    rfl
  · unfold solve
    have hc0 : courses ≠ [] := by
      intro h
      rw [h] at h1
      exact h1 rfl
    rw [if_neg (by rw [List.isEmpty_iff]; exact hc0),
      if_neg (by rw [List.isEmpty_iff]; exact h1)]
    have hidem : (courses.filter (fun c => !c.sections.isEmpty)).filter
        (fun c => !c.sections.isEmpty) = courses.filter (fun c => !c.sections.isEmpty) := by
      rw [List.filter_filter]
      apply List.filter_congr
      intro c _
      rw [Bool.and_self]
    rw [if_neg (by rw [List.isEmpty_iff]; exact h1), if_neg]
    · rw [hidem]
    · rw [List.isEmpty_iff, hidem]
      exact h1

theorem solve_msOf_perm (courses : List Course) (mr : Int)
    (hne : courses.filter (fun c => !c.sections.isEmpty) ≠ [])
    (hcap : ((validCombos (courses.filter (fun c => !c.sections.isEmpty))).length : Int)
      < mr) :
    ((solve courses mr).map msOf).Perm
      ((validCombos (courses.filter (fun c => !c.sections.isEmpty))).map msOf) := by
  rw [solve_exact courses mr hne hcap]
  exact validCombos_perm
    (List.perm_insertionSort
      (fun a b : Course => a.sections.length ≤ b.sections.length)
      (courses.filter (fun c => !c.sections.isEmpty)))

theorem solve_neg_cap (courses : List Course) (mr : Int) (h : mr < 0) :
    solve courses mr = [] := by
  unfold solve
  by_cases h0 : courses.isEmpty
  · rw [if_pos h0]
  · rw [if_neg h0]
    by_cases h1 : (courses.filter (fun c => !c.sections.isEmpty)).isEmpty
    · rw [if_pos h1]
    · rw [if_neg h1]
      rw [backtrack_stop _ _ _ (by show ((0:Nat) : Int) ≥ mr; omega)]

end CourseSched

namespace CourseSched

/-! Concrete data used by witnesses and counterexamples. -/

/-- Monday, periods 1-2. -/
def tsMon12 : TimeSlot := ⟨0, 1, 2⟩

/-- Tuesday, periods 1-2. -/
def tsTue12 : TimeSlot := ⟨1, 1, 2⟩

/-- An inverted slot: start_period greater than end_period. -/
def tsBad : TimeSlot := ⟨0, 5, 3⟩

/-- Section of course X meeting Monday periods 1-2. -/
def secXa : Section := ⟨"X", "X-a", "ida", "bxxk", [tsMon12], ""⟩

/-- Section of course X meeting Tuesday periods 1-2. -/
def secXb : Section := ⟨"X", "X-b", "idb", "bxxk", [tsTue12], ""⟩

/-- The unique section of course Y, Monday periods 1-2. -/
def secY : Section := ⟨"Y", "Y-1", "idy", "bxxk", [tsMon12], ""⟩

/-- A section with no time slots at all. -/
def secE : Section := ⟨"Z", "Z-1", "idz", "bxxk", [], ""⟩

/-- A section whose only slot is inverted. -/
def secInv : Section := ⟨"W", "W-1", "idw", "bxxk", [tsBad], ""⟩

/-- Course X with two sections. -/
def courseX : Course := ⟨"X", [secXa, secXb]⟩

/-- Course Y with one section. -/
def courseY : Course := ⟨"Y", [secY]⟩

/-- A course with zero sections. -/
def courseE : Course := ⟨"E", []⟩

/-- A course whose only section has no time slots. -/
def courseZ : Course := ⟨"Z", [secE]⟩

/-- C1: for every input course list and every max_results, every
Schedule returned by solve is conflict-free: the covered cell sets of
the Sections at any two distinct positions of the Schedule are
disjoint. -/
theorem claimC1_solve_disjoint (courses : List Course) (mr : Int)
    (sched : List Section) (h : sched ∈ solve courses mr) :
    sched.Pairwise (fun a b => Disjoint a.all_periods b.all_periods) := by
  have hp := solve_pairwise courses mr sched h
  refine hp.imp ?_
  intro a b hab
  rw [all_periods_eq_cellsF, all_periods_eq_cellsF]
  exact hab

theorem claimC1_witness :
    [secY, secXb] ∈ solve [courseX, courseY] 10 ∧
      ([secY, secXb] : List Section).Pairwise
        (fun a b => Disjoint a.all_periods b.all_periods) :=
  ⟨by decide, claimC1_solve_disjoint [courseX, courseY] 10 [secY, secXb] (by decide)⟩

/-- C5: the engine restores its state after every branch: backtrack
always returns with the occupied set and current choice it was entered
with, the section loop of a course restores the occupied set, and the
top-level search that solve runs ends with an empty occupied set. -/
theorem claimC5_state_restored :
    (∀ (mr : Int) (rem : List Course) (s : SState),
      (backtrack mr rem s).occupied = s.occupied ∧
        (backtrack mr rem s).choice = s.choice) ∧
    (∀ (mr : Int) (rest : List Course) (secs : List Section) (s : SState),
      (sectLoop (backtrack mr rest) secs s).occupied = s.occupied) ∧
    (∀ (courses : List Course) (mr : Int),
      (backtrack mr (sortCourses (courses.filter (fun c => !c.sections.isEmpty)))
        ⟨[], ∅, []⟩).occupied = ∅) :=
  ⟨fun mr rem s => ⟨backtrack_occupied mr rem s, backtrack_choice mr rem s⟩,
   fun mr rest secs s => sectLoop_occupied mr rest secs s,
   fun courses mr => backtrack_occupied mr
     (sortCourses (courses.filter (fun c => !c.sections.isEmpty))) ⟨[], ∅, []⟩⟩

/-- C6: a Section with an empty time_slots list never causes a
conflict, covers no cells, and at every search node it is
unconditionally pushed and recursed on with the occupied set unchanged
(both entering the recursion and after it); no conflict query and no
occupation is ever recorded for it in any run. -/
theorem claimC6_empty_section (sec : Section) (h : sec.time_slots = []) :
    (∀ occ : Finset Cell, hasConflict sec.time_slots occ = false) ∧
    sec.all_periods = ∅ ∧
    (∀ (mr : Int) (rest : List Course) (more : List Section) (s : SState),
      sectLoop (backtrack mr rest) (sec :: more) s =
        sectLoop (backtrack mr rest) more
          ⟨(backtrack mr rest ⟨s.results, s.occupied, s.choice ++ [sec]⟩).results,
           s.occupied, s.choice⟩) ∧
    (∀ (courses : List Course) (mr : Int),
      SEvent.check sec ∉ solveTrace courses mr) ∧
    (∀ (courses : List Course) (mr : Int),
      SEvent.occupyEv sec ∉ solveTrace courses mr) := by
  have hemp : sec.time_slots.isEmpty = true := by rw [h]; rfl
  refine ⟨?_, ?_, ?_, ?_, ?_⟩
  · intro occ
    rw [h]
    rfl
  · rw [all_periods_eq_cellsF]
    exact cellsF_eq_empty sec h
  · intro mr rest more s
    rw [sectLoop_cons_empty _ sec more s hemp]
    show sectLoop _ more _ = _
    rw [backtrack_occupied, backtrack_choice, List.dropLast_concat]
  · intro courses mr hmem
    exact solveTrace_traceOK courses mr _ hmem h
  · intro courses mr hmem
    exact solveTrace_traceOK courses mr _ hmem h

theorem claimC6_witness :
    secE.time_slots = [] ∧
    hasConflict secE.time_slots ∅ = false ∧
    secE.all_periods = ∅ ∧
    (sectLoop (backtrack 5 []) [secE] ⟨[], ∅, []⟩ =
      sectLoop (backtrack 5 []) []
        ⟨(backtrack 5 [] ⟨[], ∅, [] ++ [secE]⟩).results, ∅, []⟩) ∧
    SEvent.check secE ∉ solveTrace [courseZ] 5 ∧
    SEvent.occupyEv secE ∉ solveTrace [courseZ] 5 := by
  have h := claimC6_empty_section secE rfl
  exact ⟨rfl, h.1 ∅, h.2.1, h.2.2.1 5 [] [] ⟨[], ∅, []⟩,
    h.2.2.2.1 [courseZ] 5, h.2.2.2.2 [courseZ] 5⟩

/-- C7 counterexample: the claim asserts that an empty course list
yields exactly one Schedule, the empty one; the source returns an empty
result list instead. -/
theorem claimC7_counterexample : ¬ (solve [] 100 = [[]]) := by decide

/-- C7 (amended): calling solve with an empty course list yields zero
Schedules: the result list is empty. -/
theorem claimC7_empty_input (mr : Int) : solve [] mr = [] := rfl

/-- C9 counterexample: the claim asserts that a negative max_results
fails fast with an invalid-argument error; the source raises nothing
and returns ok with an empty list. -/
theorem claimC9_counterexample : ¬ ((solveE [courseY] (-1)).isOk = false) := by
  decide

/-- C9 (amended): solve performs no validation of max_results: with a
negative cap it raises no error and returns the empty result list. -/
theorem claimC9_no_validation (courses : List Course) (mr : Int) (h : mr < 0) :
    solveE courses mr = Except.ok [] := by
  unfold solveE
  rw [solve_neg_cap courses mr h]

theorem claimC9_witness : (-1 : Int) < 0 ∧ solveE [courseY] (-1) = Except.ok [] :=
  ⟨by decide, claimC9_no_validation [courseY] (-1) (by decide)⟩

/-- C10: a TimeSlot with start_period strictly greater than end_period
covers no cells, and a Section all of whose slots are inverted covers
no cells, never conflicts, occupies nothing, and is handled by the
section loop exactly like a Section with an empty time_slots list:
pushed, recursed on and popped, with the occupied set unchanged. -/
theorem claimC10_inverted_slots :
    (∀ ts : TimeSlot, ts.end_period < ts.start_period → ts.periods = []) ∧
    ∀ sec : Section, (∀ ts ∈ sec.time_slots, ts.end_period < ts.start_period) →
      sec.all_periods = ∅ ∧
      (∀ occ : Finset Cell, hasConflict sec.time_slots occ = false) ∧
      (∀ occ : Finset Cell, occupy sec.time_slots occ = ([], occ)) ∧
      (∀ (mr : Int) (rest : List Course) (more : List Section) (s : SState),
        sectLoop (backtrack mr rest) (sec :: more) s =
          sectLoop (backtrack mr rest) more
            ⟨(backtrack mr rest ⟨s.results, s.occupied, s.choice ++ [sec]⟩).results,
             s.occupied, s.choice⟩) := by
  refine ⟨fun ts h => periods_eq_nil ts h, ?_⟩
  intro sec hinv
  have hflat : sec.time_slots.flatMap TimeSlot.periods = [] := by
    rw [List.flatMap_eq_nil_iff]
    intro ts hts
    exact periods_eq_nil ts (hinv ts hts)
  have hcells : cellsF sec = ∅ := by
    unfold cellsF secCells
    rw [hflat]
    rfl
  have hconf : ∀ occ : Finset Cell, hasConflict sec.time_slots occ = false := by
    intro occ
    rw [hasConflict_sec_iff, hcells]
    exact Finset.disjoint_empty_left _
  have hocc : ∀ occ : Finset Cell, occupy sec.time_slots occ = ([], occ) := by
    intro occ
    rw [occupy_eq, hflat]
    simp
  refine ⟨?_, hconf, hocc, ?_⟩
  · rw [all_periods_eq_cellsF]
    exact hcells
  · intro mr rest more s
    by_cases hemp : sec.time_slots.isEmpty = true
    · rw [sectLoop_cons_empty _ sec more s hemp]
      show sectLoop _ more _ = _
      rw [backtrack_occupied, backtrack_choice, List.dropLast_concat]
    · rw [Bool.not_eq_true] at hemp
      rw [sectLoop_cons_go _ sec more s hemp (hconf s.occupied)]
      show sectLoop _ more _ = _
      rw [hocc s.occupied]
      show sectLoop _ more
        ⟨_, release [] (backtrack mr rest _).occupied, _⟩ = _
      rw [backtrack_occupied, backtrack_choice, List.dropLast_concat]
      rfl

theorem claimC10_witness :
    (tsBad.end_period < tsBad.start_period ∧ tsBad.periods = []) ∧
    (∀ ts ∈ secInv.time_slots, ts.end_period < ts.start_period) ∧
    secInv.all_periods = ∅ ∧
    hasConflict secInv.time_slots ∅ = false ∧
    occupy secInv.time_slots {(0, 1)} = ([], {(0, 1)}) ∧
    (sectLoop (backtrack 5 []) [secInv] ⟨[], ∅, []⟩ =
      sectLoop (backtrack 5 []) []
        ⟨(backtrack 5 [] ⟨[], ∅, [] ++ [secInv]⟩).results, ∅, []⟩) := by
  have h2 := claimC10_inverted_slots.2 secInv (by decide)
  exact ⟨⟨by decide, claimC10_inverted_slots.1 tsBad (by decide)⟩, by decide,
    h2.1, h2.2.1 ∅, h2.2.2.1 {(0, 1)}, h2.2.2.2 5 [] [] ⟨[], ∅, []⟩⟩

end CourseSched

namespace CourseSched

/-- C2 counterexample: with a zero-section course in the input, the
returned Schedules are not the valid combinations of the input course
list (which are none here, one course having no sections): solve skips
the empty course and still returns a Schedule, so the multiset-of-
sections view of the result list differs from that of the valid
combinations even though max_results exceeds their number. -/
theorem claimC2_counterexample :
    ¬ (((validCombos [courseE, courseY]).length : Int) < 1 →
        ((solve [courseE, courseY] 1).map msOf).Perm
          ((validCombos [courseE, courseY]).map msOf)) := by
  decide

/-- C2 (amended): if at least one input course has a section and
max_results exceeds the number of conflict-free combinations of the
courses that have sections, then solve returns exactly those
combinations, each exactly once (equality of the multisets of
schedules viewed as section multisets), and this collection is the
same for any permutation of the input course list run with a
sufficient cap. -/
theorem claimC2_completeness (courses : List Course) (mr : Int)
    (hne : courses.filter (fun c => !c.sections.isEmpty) ≠ [])
    (hcap : ((validCombos (courses.filter (fun c => !c.sections.isEmpty))).length : Int)
      < mr) :
    ((solve courses mr).map msOf).Perm
      ((validCombos (courses.filter (fun c => !c.sections.isEmpty))).map msOf) ∧
    ∀ (courses2 : List Course) (mr2 : Int), courses.Perm courses2 →
      ((validCombos (courses2.filter (fun c => !c.sections.isEmpty))).length : Int)
        < mr2 →
      ((solve courses2 mr2).map msOf).Perm ((solve courses mr).map msOf) := by
  refine ⟨solve_msOf_perm courses mr hne hcap, ?_⟩
  intro courses2 mr2 hperm hcap2
  have hpf : (courses.filter (fun c => !c.sections.isEmpty)).Perm
      (courses2.filter (fun c => !c.sections.isEmpty)) := hperm.filter _
  have hne2 : courses2.filter (fun c => !c.sections.isEmpty) ≠ [] := by
    intro hnil
    apply hne
    rw [← List.length_eq_zero]
    rw [← List.length_eq_zero] at hnil
    rw [hpf.length_eq]
    exact hnil
  have h2 := solve_msOf_perm courses2 mr2 hne2 hcap2
  have h1 := solve_msOf_perm courses mr hne hcap
  exact h2.trans ((validCombos_perm hpf.symm).trans h1.symm)

theorem claimC2_witness :
    ([courseX, courseY].filter (fun c => !c.sections.isEmpty) ≠ []) ∧
    (((validCombos ([courseX, courseY].filter
      (fun c => !c.sections.isEmpty))).length : Int) < 10) ∧
    ((solve [courseX, courseY] 10).map msOf).Perm
      ((validCombos ([courseX, courseY].filter
        (fun c => !c.sections.isEmpty))).map msOf) ∧
    ((solve [courseY, courseX] 7).map msOf).Perm
      ((solve [courseX, courseY] 10).map msOf) := by
  have h := claimC2_completeness [courseX, courseY] 10 (by decide) (by decide)
  exact ⟨by decide, by decide, h.1, h.2 [courseY, courseX] 7 (by decide) (by decide)⟩

/-- C3 counterexample: the claim quantifies over every max_results, but
with a negative cap the returned list (which is empty) still has more
entries than max_results allows. -/
theorem claimC3_counterexample :
    ¬ (((solve [courseY] (-1)).length : Int) ≤ -1) := by decide

/-- C3 (amended): for every input and every nonnegative max_results the
number of returned Schedules never exceeds max_results, and every node
expansion recorded in the search trace happens while the accepted-
result count is strictly below max_results, so reaching the cap stops
the entire traversal: no node anywhere in the tree is expanded
afterwards. -/
theorem claimC3_cap_respected (courses : List Course) (mr : Int) (h : 0 ≤ mr) :
    ((solve courses mr).length : Int) ≤ mr ∧
    ∀ n : Nat, SEvent.expand n ∈ solveTrace courses mr → (n : Int) < mr := by
  constructor
  · unfold solve
    by_cases h0 : courses.isEmpty
    · rw [if_pos h0]
      simpa using h
    · rw [if_neg h0]
      by_cases h1 : (courses.filter (fun c => !c.sections.isEmpty)).isEmpty
      · rw [if_pos h1]
        simpa using h
      · rw [if_neg h1]
        refine backtrack_count mr _ ⟨[], ∅, []⟩ ?_
        simpa using h
  · intro n hn
    exact solveTrace_traceOK courses mr _ hn

theorem claimC3_witness :
    ((0 : Int) ≤ 1) ∧ ((solve [courseX, courseY] 1).length : Int) ≤ 1 ∧
      (SEvent.expand 0 ∈ solveTrace [courseX, courseY] 1 → (0 : Int) < 1) :=
  ⟨by decide, (claimC3_cap_respected [courseX, courseY] 1 (by decide)).1,
   fun hmem => (claimC3_cap_respected [courseX, courseY] 1 (by decide)).2 0 hmem⟩

/-- C4 counterexample: the engine sorts courses by ascending section
count before searching, so a returned Schedule lists one section per
course in sorted order, not input order: with input [X (2 sections),
Y (1 section)] the first entry of the returned Schedule belongs to Y,
not X. -/
theorem claimC4_counterexample :
    ¬ (∀ sched ∈ solve [courseX, courseY] 10,
        List.Forall₂ (fun (sec : Section) (c : Course) => sec ∈ c.sections) sched
          [courseX, courseY]) := by
  decide

/-- C4 (amended): every Schedule returned by solve is an ordered list
with exactly one Section per retained input Course (courses with at
least one section), listed in the order of those courses after the
engine's stable sort by ascending section count. -/
theorem claimC4_one_per_course (courses : List Course) (mr : Int)
    (sched : List Section) (h : sched ∈ solve courses mr) :
    List.Forall₂ (fun sec c => sec ∈ c.sections) sched
      (sortCourses (courses.filter (fun c => !c.sections.isEmpty))) := by
  unfold solve at h
  by_cases h0 : courses.isEmpty
  · rw [if_pos h0] at h
    cases h
  · rw [if_neg h0] at h
    by_cases h1 : (courses.filter (fun c => !c.sections.isEmpty)).isEmpty
    · rw [if_pos h1] at h
      cases h
    · rw [if_neg h1] at h
      rcases backtrack_extension mr _ ⟨[], ∅, []⟩ sched h with hin | ⟨ext, he, hfa⟩
      · cases hin
      · rw [he, List.nil_append]
        exact hfa

theorem claimC4_witness :
    [secY, secXb] ∈ solve [courseX, courseY] 10 ∧
      List.Forall₂ (fun sec c => sec ∈ c.sections) [secY, secXb]
        (sortCourses ([courseX, courseY].filter (fun c => !c.sections.isEmpty))) :=
  ⟨by decide, claimC4_one_per_course [courseX, courseY] 10 [secY, secXb] (by decide)⟩

/-- C8: a course with zero sections is recovered locally: solve returns
exactly what it returns for the input with all zero-section courses
removed, the diagnostics are empty precisely when no course is empty,
and every empty course contributes its skip message. -/
theorem claimC8_skip_empty_courses (courses : List Course) (mr : Int) :
    solve courses mr = solve (courses.filter (fun c => !c.sections.isEmpty)) mr ∧
    (solveDiagnostics courses = [] ↔ ∀ c ∈ courses, c.sections ≠ []) ∧
    ∀ c ∈ courses, c.sections = [] → skipMsg c.name ∈ solveDiagnostics courses := by
  refine ⟨solve_filter_eq courses mr, ?_, ?_⟩
  · unfold solveDiagnostics
    rw [List.map_eq_nil_iff, List.filter_eq_nil_iff]
    constructor
    · intro hall c hc hnil
      apply hall c hc
      rw [hnil]
      rfl
    · intro hall c hc hemp
      exact hall c hc (List.isEmpty_iff.mp hemp)
  · intro c hc hnil
    unfold solveDiagnostics
    rw [List.mem_map]
    refine ⟨c, ?_, rfl⟩
    rw [List.mem_filter]
    exact ⟨hc, by rw [hnil]; rfl⟩

theorem claimC8_witness :
    (solve [courseE, courseY] 7 =
      solve ([courseE, courseY].filter (fun c => !c.sections.isEmpty)) 7) ∧
    courseE ∈ [courseE, courseY] ∧ courseE.sections = [] ∧
    skipMsg courseE.name ∈ solveDiagnostics [courseE, courseY] := by
  have h := claimC8_skip_empty_courses [courseE, courseY] 7
  exact ⟨h.1, by decide, rfl, h.2.2 courseE (by decide) rfl⟩

end CourseSched
